import Mathlib

/-!
Shallow embedding of the metslib model core (`metslib/model.hh` and the
abstract-search header) and proofs of the specification claims about it.

Machine integers (`int`) are modelled as `Int`; `size_t` results are
modelled as `Nat` reduced mod `2^64`; `std::vector<int>` is `List Int`;
C++ member functions become Lean functions taking the object first.
Member functions whose bodies are not part of the two source headers
(only declared there) are modelled from the spec and say so in their
doc comment.
-/

namespace Mets

/-- Step code from `abstract_search`: `static const int MOVE_MADE = 0;`. -/
def MOVE_MADE : Int := 0

/-- Step code from `abstract_search`: `static const int IMPROVEMENT_MADE = 0;`
(this is the literal value in the source). -/
def IMPROVEMENT_MADE : Int := 0

/-- The `swap_elements` move: two `int` fields `p1`, `p2`. -/
structure swap_elements where
  p1 : Int
  p2 : Int
deriving DecidableEq

/-- Constructor `swap_elements(int from, int to)`:
`p1(std::min(from,to)), p2(std::max(from,to))`. -/
def swap_elements.make (a b : Int) : swap_elements :=
  ⟨min a b, max a b⟩

/-- `void change(int from, int to)`:
`p1 = std::min(from,to); p2 = std::max(from,to);` (overwrites both fields
of the receiver, so the receiver's old value is irrelevant). -/
def swap_elements.change (_ : swap_elements) (a b : Int) : swap_elements :=
  ⟨min a b, max a b⟩

/-- Two's-complement conversion of an `int` value to `size_t` (64-bit). -/
def toSizeT (x : Int) : Nat :=
  (x % (2 ^ 64 : Int)).toNat

/-- `size_t swap_elements::hash() const { return (p1)<<16^(p2); }` —
the shift-xor computed on the machine representation, reduced to 64 bits. -/
def swap_elements.hash (m : swap_elements) : Nat :=
  ((toSizeT m.p1 <<< 16) ^^^ toSizeT m.p2) % 2 ^ 64

/-- Modelled from the spec: the body of `swap_elements::operator==` is only
declared in `model.hh` (line 297) and not defined in the available sources.
The spec says "Equality: same canonical pair", so equality compares the
two canonical fields. -/
def swap_elements.eq (a b : swap_elements) : Bool :=
  a.p1 == b.p1 && a.p2 == b.p2

/-- Swap of the values at positions `i` and `j` of a list, the picture of
`std::swap(pi_m[i], pi_m[j])` (both reads happen before the writes). -/
def listSwap (l : List Int) (i j : Nat) : List Int :=
  (l.set i (l.getD j 0)).set j (l.getD i 0)

/-- `permutation_problem`: holds `std::vector<int> pi_m`. -/
structure permutation_problem where
  pi_m : List Int
deriving DecidableEq

/-- Constructor `permutation_problem(int n) : pi_m(n)` followed by
`std::generate(pi_m.begin(), pi_m.end(), sequence(0))`: the `sequence`
generator yields `0, 1, 2, …`, so `pi_m = {0, 1, …, n-1}`. -/
def permutation_problem.ofSize (n : Nat) : permutation_problem :=
  ⟨(List.range n).map Int.ofNat⟩

/-- `size_t size() { return pi_m.size(); }`. -/
def permutation_problem.size (p : permutation_problem) : Nat :=
  p.pi_m.length

/-- `void swap(int i, int j) { std::swap(pi_m[i], pi_m[j]); }`.
Indices are modelled as `Nat`; the C++ version has undefined behaviour on
invalid indices and the spec only speaks of valid ones. -/
def permutation_problem.swap (p : permutation_problem) (i j : Nat) : permutation_problem :=
  ⟨listSwap p.pi_m i j⟩

/-- `void swap_elements::apply(feasible_solution&)` dispatches to the
permutation's swap on the canonical pair: `sol.swap(p1, p2)`. -/
def swap_elements.apply (m : swap_elements) (s : permutation_problem) : permutation_problem :=
  s.swap m.p1.toNat m.p2.toNat

/-- `pi_m` holds a permutation of `{0, …, n-1}`. -/
def isPermOf (l : List Int) (n : Nat) : Prop :=
  List.Perm l ((List.range n).map Int.ofNat)

instance (l : List Int) (n : Nat) : Decidable (isPermOf l n) :=
  inferInstanceAs (Decidable (List.Perm _ _))

/-- `move_manager`: holds the moves queue `std::deque<move*> moves_m`,
here specialised by the element type of the stored moves. -/
structure move_manager (α : Type) where
  moves_m : List α
deriving DecidableEq

/-- Default constructor `move_manager() : moves_m() {}`. -/
def move_manager.empty (α : Type) : move_manager α :=
  ⟨[]⟩

/-- `size_type size() const { return moves_m.size(); }`. -/
def move_manager.size {α : Type} (mm : move_manager α) : Nat :=
  mm.moves_m.length

/-- Modelled from the spec: the body of `best_ever_solution::accept` is only
declared in the abstract-search header and not defined in the available
sources.  Per the spec it "compares `sol.cost` to `best_ever.cost`; if
strictly less, it `copy_from`s the caller-owned best buffer from `sol` and
returns true. The very first call snapshots unconditionally (equivalent to
initializing best cost to +∞)".  The recorder's state is the recorded best
cost, `none` before the first snapshot; a solution is modelled by its
cost. -/
def best_ever_accept : Option Int → Int → Bool × Option Int
  | none, c => (true, some c)
  | some b, c => if c < b then (true, some c) else (false, some b)

/-- Run a sequence of `accept` calls, collecting the returned booleans and
the final recorded state. -/
def best_ever_run (st : Option Int) : List Int → Option Int × List Bool
  | [] => (st, [])
  | c :: cs =>
    let r := best_ever_accept st c
    let rest := best_ever_run r.2 cs
    (rest.1, r.1 :: rest.2)

/-- One draw from the caller-supplied uniform integer source over `[0, n)`:
`int_range(rng, n)`.  The random generator is modelled as a stream
`g : Nat → Nat` read at a cursor `k`; reduction mod `n` gives the uniform
range. -/
def draw (g : Nat → Nat) (n k : Nat) : Nat :=
  g k % n

/-- The re-draw loop `p2 = int_range(rng, size); while (p1 == p2) p2 = …`:
draw `p2` at the cursor and re-draw while it collides with `p1`.
The C++ `while` loop is unbounded, so the model carries fuel and returns
`none` when the stream never yields a distinct value within the fuel;
on success it returns the drawn `p2` and the advanced cursor. -/
def redrawDistinct (g : Nat → Nat) (n p1 : Nat) : Nat → Nat → Option (Nat × Nat)
  | _, 0 => none
  | k, fuel + 1 =>
    let p2 := draw g n k
    if p2 = p1 then redrawDistinct g n p1 (k + 1) fuel else some (p2, k + 1)

/-- `perturbate(permutation_problem& p, unsigned int n, random_generator& rng)`
from `model.hh`: `n` iterations of (draw `p1`, draw `p2` re-drawing until
distinct from `p1`, `p.swap(p1, p2)`).  Besides the perturbed problem the
model returns the list of swaps performed, so theorems can speak about
them; `k` is the stream cursor and `fuel` bounds each re-draw loop. -/
def perturbate (p : permutation_problem) (count : Nat) (g : Nat → Nat) (k fuel : Nat) :
    Option (permutation_problem × List (Nat × Nat)) :=
  match count with
  | 0 => some (p, [])
  | c + 1 =>
    let p1 := draw g p.size k
    match redrawDistinct g p.size p1 (k + 1) fuel with
    | none => none
    | some (p2, k2) =>
      match perturbate (p.swap p1 p2) c g k2 fuel with
      | none => none
      | some (q, sw) => some (q, (p1, p2) :: sw)

/-- Modelled from the spec: the body of `swap_neighborhood::refresh` (and its
helper `randomize_move`) is only declared in `model.hh` and not defined in
the available sources.  Per the spec, refresh publishes exactly `count`
swap moves; for each slot it "draws i, j uniformly in [0, size(sol)); if
i == j it re-draws j until distinct; then sets the move's canonical
(p1, p2)" — the slot mutation is `swap_elements::change`. -/
def refreshAux (g : Nat → Nat) (n : Nat) : Nat → Nat → Nat → Option (List swap_elements)
  | 0, _, _ => some []
  | c + 1, k, fuel =>
    let p1 := draw g n k
    match redrawDistinct g n p1 (k + 1) fuel with
    | none => none
    | some (p2, k2) =>
      match refreshAux g n c k2 fuel with
      | none => none
      | some ms => some (swap_elements.change ⟨0, 0⟩ (Int.ofNat p1) (Int.ofNat p2) :: ms)

/-- Modelled from the spec: `swap_neighborhood(rng, moves)` followed by
`refresh(s)` leaves the manager's queue holding the freshly randomized
moves.  `count` is the constructor parameter `moves`. -/
def swap_neighborhood_refresh (g : Nat → Nat) (count : Nat) (s : permutation_problem)
    (fuel : Nat) : Option (move_manager swap_elements) :=
  (refreshAux g s.size count 0 fuel).map (fun ms => ⟨ms⟩)

/-- The positions (below the length of `l`) where two lists disagree. -/
def diffIndices (l l' : List Int) : List Nat :=
  (List.range l.length).filter (fun i => l.getD i 0 != l'.getD i 0)

/-! Helper lemmas about `listSwap`. -/

theorem set_getD_self (l : List Int) (i : Nat) (h : i < l.length) :
    l.set i (l.getD i 0) = l := by
  induction l generalizing i with
  | nil => simp
  | cons a t ih =>
    cases i with
    | zero => simp
    | succ i' =>
      have h' : i' < t.length := by simpa using h
      show a :: t.set i' (t.getD i' 0) = a :: t
      rw [ih i' h']

theorem cons_set_perm (t : List Int) (k : Nat) (hk : k < t.length) (a : Int) :
    List.Perm (t.getD k 0 :: t.set k a) (a :: t) := by
  induction t generalizing k with
  | nil => simp at hk
  | cons b s ih =>
    cases k with
    | zero =>
      show List.Perm (b :: a :: s) (a :: b :: s)
      exact List.Perm.swap a b s
    | succ k' =>
      have hk' : k' < s.length := by simpa using hk
      have e : (b :: s).getD (k' + 1) 0 :: (b :: s).set (k' + 1) a
          = s.getD k' 0 :: b :: s.set k' a := by simp
      rw [e]
      exact ((List.Perm.swap b (s.getD k' 0) (s.set k' a)).trans
        (List.Perm.cons b (ih k' hk'))).trans (List.Perm.swap a b s)

theorem listSwap_perm (l : List Int) (i j : Nat) (hi : i < l.length) (hj : j < l.length) :
    List.Perm (listSwap l i j) l := by
  induction l generalizing i j with
  | nil => simp at hi
  | cons a t ih =>
    match i, j with
    | 0, 0 =>
      show List.Perm (((a :: t).set 0 ((a :: t).getD 0 0)).set 0 ((a :: t).getD 0 0)) (a :: t)
      exact List.Perm.refl (a :: t)
    | 0, j' + 1 =>
      have hj' : j' < t.length := by simpa using hj
      have e : listSwap (a :: t) 0 (j' + 1) = t.getD j' 0 :: t.set j' a := by
        simp [listSwap]
      rw [e]
      exact cons_set_perm t j' hj' a
    | i' + 1, 0 =>
      have hi' : i' < t.length := by simpa using hi
      have e : listSwap (a :: t) (i' + 1) 0 = t.getD i' 0 :: t.set i' a := by
        simp [listSwap]
      rw [e]
      exact cons_set_perm t i' hi' a
    | i' + 1, j' + 1 =>
      have e : listSwap (a :: t) (i' + 1) (j' + 1) = a :: listSwap t i' j' := by
        simp [listSwap]
      rw [e]
      exact List.Perm.cons a (ih i' j' (by simpa using hi) (by simpa using hj))

theorem listSwap_listSwap (l : List Int) (i j : Nat) (hi : i < l.length)
    (hj : j < l.length) : listSwap (listSwap l i j) i j = l := by
  rcases eq_or_ne i j with heq | hne
  · subst heq
    have hin : listSwap l i i = l := by
      unfold listSwap
      rw [List.set_set, set_getD_self l i hi]
    rw [hin, hin]
  · have hgi : (listSwap l i j).getD i 0 = l.getD j 0 := by
      unfold listSwap
      rw [List.getD_eq_getElem?_getD, List.getElem?_set_ne (Ne.symm hne),
        List.getElem?_set_self hi]
      rfl
    have hgj : (listSwap l i j).getD j 0 = l.getD i 0 := by
      unfold listSwap
      rw [List.getD_eq_getElem?_getD,
        List.getElem?_set_self (by simpa using hj :
          j < (l.set i (l.getD j 0)).length)]
      rfl
    show ((listSwap l i j).set i ((listSwap l i j).getD j 0)).set j
        ((listSwap l i j).getD i 0) = l
    rw [hgi, hgj]
    show ((((l.set i (l.getD j 0)).set j (l.getD i 0)).set i (l.getD i 0)).set j
        (l.getD j 0)) = l
    rw [List.set_comm _ _ _ (Ne.symm hne), List.set_set, List.set_set,
      set_getD_self l i hi, set_getD_self l j hj]

theorem listSwap_length (l : List Int) (i j : Nat) :
    (listSwap l i j).length = l.length := by
  simp [listSwap]

theorem listSwap_getD_ne (l : List Int) (i j x : Nat) (hx1 : x ≠ i) (hx2 : x ≠ j) :
    (listSwap l i j).getD x 0 = l.getD x 0 := by
  unfold listSwap
  rw [List.getD_eq_getElem?_getD, List.getElem?_set_ne (Ne.symm hx2),
    List.getElem?_set_ne (Ne.symm hx1), ← List.getD_eq_getElem?_getD]

theorem min_ne_max_of_ne {a b : Int} (h : a ≠ b) : min a b ≠ max a b := by
  intro hmm
  exact h (le_antisymm
    (((le_max_left a b).trans_eq hmm.symm).trans (min_le_right a b))
    (((le_max_right a b).trans_eq hmm.symm).trans (min_le_left a b)))

/-! Soundness of the re-draw loop and the loops built on it. -/

theorem redrawDistinct_sound (g : Nat → Nat) (n p1 : Nat) (fuel : Nat) :
    ∀ (k p2 k2 : Nat), redrawDistinct g n p1 k fuel = some (p2, k2) →
      p2 ≠ p1 ∧ (0 < n → p2 < n) := by
  induction fuel with
  | zero =>
    intro k p2 k2 h
    simp [redrawDistinct] at h
  | succ fuel ih =>
    intro k p2 k2 h
    rw [redrawDistinct] at h
    split at h
    · exact ih (k + 1) p2 k2 h
    · rename_i hc
      obtain ⟨h1, h2⟩ := Prod.mk.injEq .. ▸ Option.some.inj h
      subst h1
      exact ⟨hc, fun hn => Nat.mod_lt _ hn⟩

theorem swap_preserves_perm (p : permutation_problem) (n i j : Nat)
    (hi : i < p.size) (hj : j < p.size) (hp : isPermOf p.pi_m n) :
    isPermOf (p.swap i j).pi_m n :=
  (listSwap_perm p.pi_m i j hi hj).trans hp

theorem swap_of_empty (p : permutation_problem) (hz : p.size = 0) (i j : Nat) :
    p.swap i j = p := by
  obtain ⟨l⟩ := p
  have : l = [] := List.length_eq_zero.mp hz
  subst this
  simp [permutation_problem.swap, listSwap]

theorem perturbate_sound (n : Nat) (g : Nat → Nat) (fuel : Nat) :
    ∀ (count : Nat) (p : permutation_problem) (k : Nat) (q : permutation_problem)
      (sw : List (Nat × Nat)),
      perturbate p count g k fuel = some (q, sw) →
      sw.length = count ∧ (∀ pr ∈ sw, pr.1 ≠ pr.2) ∧
      (isPermOf p.pi_m n → isPermOf q.pi_m n) ∧
      (∀ x, (∀ pr ∈ sw, x ≠ pr.1 ∧ x ≠ pr.2) → q.pi_m.getD x 0 = p.pi_m.getD x 0) := by
  intro count
  induction count with
  | zero =>
    intro p k q sw h
    rw [perturbate] at h
    obtain ⟨h1, h2⟩ := Prod.mk.injEq .. ▸ Option.some.inj h
    subst h1; subst h2
    exact ⟨rfl, by simp, id, fun x _ => rfl⟩
  | succ c ih =>
    intro p k q sw h
    rw [perturbate] at h
    split at h
    · exact absurd h (by simp)
    · rename_i p2 k2 hrd
      split at h
      · exact absurd h (by simp)
      · rename_i q' sw' hpt
        obtain ⟨h1, h2⟩ := Prod.mk.injEq .. ▸ Option.some.inj h
        subst h1; subst h2
        obtain ⟨hne2, hlt2⟩ := redrawDistinct_sound g p.size (draw g p.size k) fuel
          (k + 1) p2 k2 hrd
        obtain ⟨hlen, hdis, hperm, hagree⟩ := ih (p.swap (draw g p.size k) p2) k2 q' sw' hpt
        refine ⟨by simp [hlen], ?_, ?_, ?_⟩
        · intro pr hpr
          rcases List.mem_cons.mp hpr with he | hm
          · subst he
            exact fun e => hne2 e.symm
          · exact hdis pr hm
        · intro hp
          apply hperm
          rcases Nat.eq_zero_or_pos p.size with hz | hpos
          · rw [swap_of_empty p hz]
            exact hp
          · exact swap_preserves_perm p n _ _ (Nat.mod_lt _ hpos) (hlt2 hpos) hp
        · intro x hx
          have hxh := hx (draw g p.size k, p2) (List.mem_cons_self _ _)
          have ht : ∀ pr ∈ sw', x ≠ pr.1 ∧ x ≠ pr.2 :=
            fun pr hpr => hx pr (List.mem_cons_of_mem _ hpr)
          rw [hagree x ht]
          exact listSwap_getD_ne p.pi_m _ _ x hxh.1 hxh.2

theorem flat_pairs_length (sw : List (Nat × Nat)) :
    (sw.flatMap (fun pr => [pr.1, pr.2])).length = 2 * sw.length := by
  induction sw with
  | nil => rfl
  | cons pr sw ih => simp [ih]; omega

theorem diffIndices_length_le (l l' : List Int) (sw : List (Nat × Nat))
    (hagree : ∀ x, (∀ pr ∈ sw, x ≠ pr.1 ∧ x ≠ pr.2) → l'.getD x 0 = l.getD x 0) :
    (diffIndices l l').length ≤ 2 * sw.length := by
  have hsub : ∀ x ∈ diffIndices l l', x ∈ sw.flatMap (fun pr => [pr.1, pr.2]) := by
    intro x hx
    by_contra hxf
    have hout : ∀ pr ∈ sw, x ≠ pr.1 ∧ x ≠ pr.2 := by
      intro pr hpr
      constructor <;> intro e <;> exact hxf (List.mem_flatMap.mpr ⟨pr, hpr, by simp [e]⟩)
    have heq := hagree x hout
    have hx2 := (List.mem_filter.mp hx).2
    simp only [bne_iff_ne, ne_eq, decide_eq_true_eq] at hx2
    exact hx2 heq.symm
  have hnd : (diffIndices l l').Nodup :=
    List.Nodup.filter _ (List.nodup_range l.length)
  calc (diffIndices l l').length
      = (diffIndices l l').toFinset.card := (List.toFinset_card_of_nodup hnd).symm
    _ ≤ (sw.flatMap (fun pr => [pr.1, pr.2])).toFinset.card :=
        Finset.card_le_card (fun x hx => by
          rw [List.mem_toFinset] at hx ⊢
          exact hsub x hx)
    _ ≤ (sw.flatMap (fun pr => [pr.1, pr.2])).length := List.toFinset_card_le _
    _ = 2 * sw.length := flat_pairs_length sw

theorem best_ever_accept_state (b c : Int) :
    (best_ever_accept (some b) c).2 = some (min b c) := by
  by_cases h : c < b
  · simp [best_ever_accept, h, min_eq_right h.le]
  · simp [best_ever_accept, h, min_eq_left (not_lt.mp h)]

theorem best_ever_run_some (b : Int) (cs : List Int) :
    (best_ever_run (some b) cs).1 = some (cs.foldl min b) := by
  induction cs generalizing b with
  | nil => rfl
  | cons c cs ih =>
    show (best_ever_run (best_ever_accept (some b) c).2 cs).1 = some ((c :: cs).foldl min b)
    rw [best_ever_accept_state, ih]
    rfl

theorem refreshAux_sound (g : Nat → Nat) (n : Nat) (hn : 0 < n) :
    ∀ (count k fuel : Nat) (ms : List swap_elements),
      refreshAux g n count k fuel = some ms →
      ms.length = count ∧ ∀ mv ∈ ms,
        mv.p1 ≠ mv.p2 ∧ 0 ≤ mv.p1 ∧ mv.p1 < (n : Int) ∧ 0 ≤ mv.p2 ∧ mv.p2 < (n : Int) := by
  intro count
  induction count with
  | zero =>
    intro k fuel ms h
    rw [refreshAux] at h
    have h' := Option.some.inj h
    subst h'
    exact ⟨rfl, by simp⟩
  | succ c ih =>
    intro k fuel ms h
    rw [refreshAux] at h
    split at h
    · exact absurd h (by simp)
    · rename_i p2 k2 hrd
      split at h
      · exact absurd h (by simp)
      · rename_i ms' hra
        have h' := Option.some.inj h
        subst h'
        obtain ⟨hne2, hlt2⟩ := redrawDistinct_sound g n (draw g n k) fuel (k + 1) p2 k2 hrd
        obtain ⟨hlen, hmv⟩ := ih k2 fuel ms' hra
        refine ⟨by simp [hlen], ?_⟩
        intro mv hmem
        rcases List.mem_cons.mp hmem with he | hm
        · subst he
          have hdn : draw g n k < n := Nat.mod_lt _ hn
          have hp2n : p2 < n := hlt2 hn
          have hab : (Int.ofNat (draw g n k)) ≠ Int.ofNat p2 := by
            intro e
            exact hne2 (Int.ofNat.inj e).symm
          exact ⟨min_ne_max_of_ne hab,
            le_min (Int.natCast_nonneg _) (Int.natCast_nonneg _),
            (min_le_left _ _).trans_lt (Int.ofNat_lt.mpr hdn),
            (Int.natCast_nonneg _).trans (le_max_left _ _),
            max_lt (Int.ofNat_lt.mpr hdn) (Int.ofNat_lt.mpr hp2n)⟩
        · exact hmv mv hm

/-! The claim theorems. -/

/-- C1: the claim says the published step codes `MOVE_MADE` and
`IMPROVEMENT_MADE` are distinct integer values; in the source both are
defined as `0`, contradicting the doc comment next to `step()` which says
`0 = "MOVE_MADE", 1 = "IMPROVEMENT_MADE"`.  This theorem evaluates the two
constants: they are equal. -/
theorem c1_step_codes_equal : MOVE_MADE = IMPROVEMENT_MADE ∧ IMPROVEMENT_MADE = 0 :=
  ⟨rfl, rfl⟩

/-- C2: for all integers `a`, `b`, the moves `swap_elements(a,b)` and
`swap_elements(b,a)` compare equal and have equal hash values, because the
constructor canonicalizes to `p1 = min`, `p2 = max` and the hash is a
function of the canonical pair. -/
theorem c2_swap_elements_symm (a b : Int) :
    (swap_elements.make a b).eq (swap_elements.make b a) = true ∧
    (swap_elements.make a b).hash = (swap_elements.make b a).hash := by
  have h : swap_elements.make a b = swap_elements.make b a := by
    simp [swap_elements.make, min_comm, max_comm]
  rw [h]
  exact ⟨by simp [swap_elements.eq], rfl⟩

/-- C3: running `best_ever_solution` over accepts `s_1, …, s_k` (`k ≥ 1`,
costs `c :: cs`) leaves the recorded best cost equal to the minimum of all
offered costs; the very first accept snapshots and returns true; and on an
initialized recorder, accept returns true exactly when the offered cost is
strictly below the recorded one, in which case the offered cost is
recorded. -/
theorem c3_best_ever_min (c : Int) (cs : List Int) :
    (best_ever_run none (c :: cs)).1 = some (cs.foldl min c) ∧
    (∃ rest, (best_ever_run none (c :: cs)).2 = true :: rest) ∧
    ∀ (b x : Int), best_ever_accept (some b) x
        = (decide (x < b), if x < b then some x else some b) := by
  refine ⟨?_, ⟨(best_ever_run (some c) cs).2, rfl⟩, ?_⟩
  · show (best_ever_run (some c) cs).1 = some (cs.foldl min c)
    exact best_ever_run_some c cs
  · intro b x
    by_cases h : x < b <;> simp [best_ever_accept, h]

/-- C4: after a successful `swap_neighborhood` refresh with move count
`count` over a solution of size at least 2, the neighborhood holds exactly
`count` moves, each with canonical indices `p1 ≠ p2` both inside
`[0, size)`. -/
theorem c4_refresh_neighborhood (g : Nat → Nat) (count fuel : Nat)
    (s : permutation_problem) (hn : 2 ≤ s.size) (mm : move_manager swap_elements)
    (h : swap_neighborhood_refresh g count s fuel = some mm) :
    mm.size = count ∧ ∀ mv ∈ mm.moves_m,
      mv.p1 ≠ mv.p2 ∧ 0 ≤ mv.p1 ∧ mv.p1 < (s.size : Int) ∧
      0 ≤ mv.p2 ∧ mv.p2 < (s.size : Int) := by
  unfold swap_neighborhood_refresh at h
  cases hra : refreshAux g s.size count 0 fuel with
  | none => rw [hra] at h; exact absurd h (by simp)
  | some ms =>
    rw [hra] at h
    simp only [Option.map_some', Option.some.injEq] at h
    subst h
    exact refreshAux_sound g s.size (by omega) count 0 fuel ms hra

/-- C4 witness: a concrete successful refresh (stream `g k = k`, two moves,
size-4 solution). -/
theorem c4_refresh_neighborhood_witness :
    (move_manager.mk [swap_elements.mk 0 1, swap_elements.mk 2 3]).size = 2 ∧
    ∀ mv ∈ (move_manager.mk [swap_elements.mk 0 1, swap_elements.mk 2 3]).moves_m,
      mv.p1 ≠ mv.p2 ∧ 0 ≤ mv.p1 ∧ mv.p1 < ((permutation_problem.ofSize 4).size : Int) ∧
      0 ≤ mv.p2 ∧ mv.p2 < ((permutation_problem.ofSize 4).size : Int) :=
  c4_refresh_neighborhood (fun k => k) 2 4 (permutation_problem.ofSize 4) (by decide)
    (move_manager.mk [swap_elements.mk 0 1, swap_elements.mk 2 3]) (by decide)

/-- C5: whenever `perturbate` over a permutation of `{0,…,n-1}` completes,
it has performed exactly `count` swaps, each with distinct endpoints, the
result is still a permutation of `{0,…,n-1}`, and at most `2 * count`
positions differ from their pre-call values. -/
theorem c5_perturbate_props (p : permutation_problem) (n count : Nat) (g : Nat → Nat)
    (k fuel : Nat) (q : permutation_problem) (sw : List (Nat × Nat))
    (hp : isPermOf p.pi_m n) (h : perturbate p count g k fuel = some (q, sw)) :
    isPermOf q.pi_m n ∧ sw.length = count ∧ (∀ pr ∈ sw, pr.1 ≠ pr.2) ∧
    (diffIndices p.pi_m q.pi_m).length ≤ 2 * count := by
  obtain ⟨hlen, hne, hperm, hagree⟩ := perturbate_sound n g fuel count p k q sw h
  exact ⟨hperm hp, hlen, hne,
    hlen ▸ diffIndices_length_le p.pi_m q.pi_m sw hagree⟩

/-- C5 witness: a concrete complete run (stream `g k = k`, two swaps on the
identity permutation of size 4). -/
theorem c5_perturbate_props_witness :
    isPermOf (permutation_problem.mk [1, 0, 3, 2]).pi_m 4 ∧
    ([((0 : Nat), (1 : Nat)), (2, 3)] : List (Nat × Nat)).length = 2 ∧
    (∀ pr ∈ ([((0 : Nat), (1 : Nat)), (2, 3)] : List (Nat × Nat)), pr.1 ≠ pr.2) ∧
    (diffIndices (permutation_problem.ofSize 4).pi_m
      (permutation_problem.mk [1, 0, 3, 2]).pi_m).length ≤ 2 * 2 :=
  c5_perturbate_props (permutation_problem.ofSize 4) 4 2 (fun k => k) 0 4
    (permutation_problem.mk [1, 0, 3, 2]) [(0, 1), (2, 3)] (by decide) (by decide)

/-- C6: a swap at valid indices leaves `pi_m` a permutation of
`{0,…,n-1}`. -/
theorem c6_swap_preserves_permutation (p : permutation_problem) (n i j : Nat)
    (hi : i < p.size) (hj : j < p.size) (hp : isPermOf p.pi_m n) :
    isPermOf (p.swap i j).pi_m n :=
  swap_preserves_perm p n i j hi hj hp

/-- C6 witness: swapping positions 0 and 2 of the identity permutation of
size 3 leaves a permutation of `{0,1,2}`. -/
theorem c6_swap_preserves_permutation_witness :
    isPermOf ((permutation_problem.ofSize 3).swap 0 2).pi_m 3 :=
  c6_swap_preserves_permutation (permutation_problem.ofSize 3) 3 0 2
    (by decide) (by decide) (by decide)

/-- C7: `permutation_problem(n)` initializes `pi_m` to the identity
`[0, 1, …, n-1]` and `size()` returns `n`. -/
theorem c7_ofSize_identity (n : Nat) :
    (permutation_problem.ofSize n).size = n ∧
    ∀ k, k < n → (permutation_problem.ofSize n).pi_m.getD k 0 = Int.ofNat k := by
  constructor
  · simp [permutation_problem.ofSize, permutation_problem.size]
  · intro k hk
    simp [permutation_problem.ofSize, List.getD_eq_getElem?_getD,
      List.getElem?_map, List.getElem?_range hk]

/-- C7 witness: at size 4 the problem has size 4 and entry 2 at position 2. -/
theorem c7_ofSize_identity_witness :
    (permutation_problem.ofSize 4).size = 4 ∧
    (permutation_problem.ofSize 4).pi_m.getD 2 0 = Int.ofNat 2 :=
  ⟨(c7_ofSize_identity 4).1, (c7_ofSize_identity 4).2 2 (by decide)⟩

/-- C8: on the size-4 identity, `swap_elements(1,3)` yields `[0,3,2,1]` and
`swap_elements(3,1)` (the same canonical move) restores `[0,1,2,3]`; in
general applying the same swap move twice at valid indices is the
identity. -/
theorem c8_swap_roundtrip :
    ((swap_elements.make 1 3).apply (permutation_problem.ofSize 4)).pi_m
      = [0, 3, 2, 1] ∧
    (swap_elements.make 3 1).apply
        ((swap_elements.make 1 3).apply (permutation_problem.ofSize 4))
      = permutation_problem.ofSize 4 ∧
    ∀ (m : swap_elements) (p : permutation_problem),
      m.p1.toNat < p.size → m.p2.toNat < p.size → m.apply (m.apply p) = p := by
  refine ⟨by decide, by decide, ?_⟩
  intro m p h1 h2
  show permutation_problem.mk
    (listSwap (listSwap p.pi_m m.p1.toNat m.p2.toNat) m.p1.toNat m.p2.toNat) = p
  rw [listSwap_listSwap p.pi_m m.p1.toNat m.p2.toNat h1 h2]

/-- C8 witness: the general round trip instantiated at `swap_elements(0,2)`
on the size-3 identity. -/
theorem c8_swap_roundtrip_witness :
    (swap_elements.make 0 2).apply
        ((swap_elements.make 0 2).apply (permutation_problem.ofSize 3))
      = permutation_problem.ofSize 3 :=
  c8_swap_roundtrip.2.2 (swap_elements.make 0 2) (permutation_problem.ofSize 3)
    (by decide) (by decide)

/-- C9: a default-constructed `move_manager` has an empty neighborhood
(`size() = 0`), and `size()` always equals the length of the moves
queue. -/
theorem c9_move_manager_size :
    (move_manager.empty swap_elements).size = 0 ∧
    ∀ mm : move_manager swap_elements, mm.size = mm.moves_m.length :=
  ⟨rfl, fun _ => rfl⟩

/-- C10: both the constructor and `change` canonicalize, so `p1 ≤ p2` holds
through the move's lifetime, and hash and equality stay argument-order
insensitive after mutating a reused slot (even across two different
slots). -/
theorem c10_canonical_invariant (a b : Int) (m m' : swap_elements) :
    (swap_elements.make a b).p1 ≤ (swap_elements.make a b).p2 ∧
    (m.change a b).p1 ≤ (m.change a b).p2 ∧
    (m.change a b).hash = (m'.change b a).hash ∧
    (m.change a b).eq (m'.change b a) = true := by
  have h : m.change a b = m'.change b a := by
    simp [swap_elements.change, min_comm, max_comm]
  refine ⟨min_le_max, min_le_max, ?_, ?_⟩
  · rw [h]
  · rw [h]
    simp [swap_elements.eq]

end Mets
